import Mathlib

/-!
Verification development for the ista-calista integration.

The definitions below are a shallow embedding of the two core pieces of the
repository:

* the history-merge engine of
  `custom_components/ista_calista/coordinator.py` (`_async_update_data`), and
* the cumulative-statistics importer of
  `custom_components/ista_calista/sensor.py` (`async_import_statistics`),
  together with the older snapshot variant
  `sensor.py` (`_perform_statistics_update`).

Timestamps (`datetime.timestamp()` values) and meter readings (Python floats)
are modelled as rationals.  Python `dict`s keyed by timestamp are modelled as
association lists where insertion keeps the first-occurrence position of a key
and overwrites its value, exactly like CPython dicts.  `sorted(..., key=...)`
is modelled with `List.insertionSort`, which is stable, matching Python's
stable sort; on timestamp-unique lists the two agree.
-/

namespace IstaCalista

/-- A meter reading: `pycalista_ista.Reading` has a `date` (modelled by its
POSIX timestamp) and a possibly absent float `reading` value. -/
structure Reading where
  date : ℚ
  value : Option ℚ
deriving DecidableEq, Repr

/-- The device kind, standing for the `pycalista_ista` `Device` subclasses. -/
inductive DeviceKind where
  | coldWater
  | hotWater
  | heating
  | generic
deriving DecidableEq, Repr

/-- A device: serial identity, kind (subclass), optional location and its
ordered reading history. -/
structure Device where
  kind : DeviceKind
  serial : String
  location : Option String
  history : List Reading
deriving DecidableEq, Repr

/-- Comparison of readings by date, the key used by
`sorted(..., key=lambda r: r.date)` in the source. -/
def rle (a b : Reading) : Prop := a.date ≤ b.date

/-- Strict version of `rle`; a history with pairwise strictly increasing
dates is sorted and timestamp-unique. -/
def rlt (a b : Reading) : Prop := a.date < b.date

instance : DecidableRel rle := fun a b => inferInstanceAs (Decidable (a.date ≤ b.date))

instance : DecidableRel rlt := fun a b => inferInstanceAs (Decidable (a.date < b.date))

instance : IsTotal Reading rle := ⟨fun a b => le_total a.date b.date⟩

instance : IsTrans Reading rle := ⟨fun _ _ _ h h' => le_trans h h'⟩

instance : IsAntisymm Reading rlt :=
  ⟨fun _ _ h h' => absurd (lt_trans h h') (lt_irrefl _)⟩

/-- `sorted(readings, key=lambda r: r.date)`. -/
def sortByDate (l : List Reading) : List Reading := List.insertionSort rle l

/-- The timestamp-keyed dictionary used by the merge engine
(`history_by_date`). -/
abbrev HistDict := List (ℚ × Reading)

/-- `history_by_date[r.date] = r`: CPython dict assignment overwrites the
value at an existing key in place (keeping its position) and appends a fresh
key at the end. -/
def upsert (m : HistDict) (r : Reading) : HistDict :=
  match m with
  | [] => [(r.date, r)]
  | (k, v) :: t => if k = r.date then (k, r) :: t else (k, v) :: upsert t r

/-- `{reading.date: reading for reading in history}`. -/
def histDict (h : List Reading) : HistDict := h.foldl upsert []

/-- Dict lookup by timestamp key. -/
def dlookup (d : ℚ) : HistDict → Option Reading
  | [] => none
  | (k, v) :: t => if k = d then some v else dlookup d t

/-- The dictionary built by the merge loop: previous history keyed by date,
then every fetched reading written over it. -/
def mergedDict (old new : List Reading) : HistDict :=
  new.foldl upsert (histDict old)

/-- `sorted(history_by_date.values(), key=lambda r: r.date)`: the merged,
deduplicated-by-date, re-sorted history of a device present in both the
previous and the fetched device map
(`coordinator.py`, `_async_update_data`, incremental branch). -/
def mergeHistories (old new : List Reading) : List Reading :=
  sortByDate ((mergedDict old new).map Prod.snd)

/-- A coordinator device map (`dict[str, Device]`), keyed by serial. -/
abbrev DeviceSet := List (String × Device)

/-- Association lookup by serial (Python `dict` access). -/
def alookup {β : Type} (s : String) : List (String × β) → Option β
  | [] => none
  | (k, v) :: t => if k = s then some v else alookup s t

/-- One iteration of the merge loop over `new_devices_history.items()`:
a device present in the previous map gets the merged history, a newly
discovered device is taken as-is. -/
def mergeDevice (prev : DeviceSet) (p : String × Device) : String × Device :=
  match alookup p.1 prev with
  | some old => (p.1, { p.2 with history := mergeHistories old.history p.2.history })
  | none => p

/-- The incremental-branch body of `_async_update_data`: the fetched map is
the source of truth for which devices exist; histories of persisting devices
are merged, previous-only serials are dropped. -/
def mergeDeviceSets (previous fetched : DeviceSet) : DeviceSet :=
  fetched.map (mergeDevice previous)

/-- `is_initial_fetch = not self.data or not self.data.get("devices")`. -/
def isInitialFetch (data : Option DeviceSet) : Bool :=
  match data with
  | none => true
  | some ds => ds.isEmpty

/-- The device-map result of one `_async_update_data` cycle, given the
previously held coordinator data and the freshly fetched map (an initial
fetch returns the fetched map as-is, which is also `{}` when it is empty). -/
def updateData (data : Option DeviceSet) (fetched : DeviceSet) : DeviceSet :=
  if isInitialFetch data then fetched else mergeDeviceSets (data.getD []) fetched

/-- The fetch-window start chosen by `_async_update_data`: the configured
offset date on an initial fetch, otherwise `now - timedelta(days=30)`
(dates as day numbers). -/
def fetchStartDate (data : Option DeviceSet) (offsetDate nowDate : ℤ) : ℤ :=
  if isInitialFetch data then offsetDate else nowDate - 30

/-- The row returned by `get_last_statistics` for a statistic id: each of the
four columns may be absent. -/
structure LastStat where
  endTs : Option ℚ
  state : Option ℚ
  sum : Option ℚ
  lastReset : Option ℚ
deriving DecidableEq, Repr

/-- An emitted `StatisticData` record. -/
structure StatPoint where
  start : ℚ
  state : ℚ
  sum : ℚ
  lastReset : Option ℚ
deriving DecidableEq, Repr

/-- Python `x or 0.0` on a possibly absent float (`None` and `0.0` are both
falsy, and both yield `0.0`). -/
def orZero (o : Option ℚ) : ℚ := o.getD 0

/-- `last_stat_end_ts`: `0.0` when there is no stored row, else
`stats.get("end") or 0.0`. -/
def rowEnd (row : Option LastStat) : ℚ :=
  match row with
  | some s => orZero s.endTs
  | none => 0

/-- `running_sum`: `0.0` when there is no stored row, else
`stats.get("sum") or 0.0`. -/
def rowSum (row : Option LastStat) : ℚ :=
  match row with
  | some s => orZero s.sum
  | none => 0

/-- `last_state`: absent when there is no stored row, else
`stats.get("state")`. -/
def rowState (row : Option LastStat) : Option ℚ := row.bind LastStat.state

/-- `last_reset_ts`: absent when there is no stored row, else
`stats.get("last_reset")`. -/
def rowReset (row : Option LastStat) : Option ℚ := row.bind LastStat.lastReset

/-- `dt_util.utc_from_timestamp(ts) if ts else None`: a `0.0` timestamp is
falsy in Python, so it is emitted as `None`. -/
def truthyTs (o : Option ℚ) : Option ℚ :=
  match o with
  | some t => if t = 0 then none else some t
  | none => none

/-- `history_dates.index(d)`: the first index whose reading has date `d`
(absent when the date does not occur, where Python raises `ValueError`,
caught by the source). -/
def firstIndexAt (history : List Reading) (d : ℚ) : Option ℕ :=
  match history with
  | [] => none
  | r :: t => if r.date = d then some 0 else (firstIndexAt t d).map (· + 1)

/-- The baseline lookup of `async_import_statistics`: when no stored state is
known, take the reading just before the first new one in the device history
(`history_dates.index(...)`, then `history[idx - 1].reading` if the index is
positive). -/
def baselineState (history : List Reading) (d : ℚ) : Option ℚ :=
  match firstIndexAt history d with
  | some i => if i = 0 then none else (history[i - 1]?).bind Reading.value
  | none => none

/-- The loop state of `async_import_statistics`: `last_state` (a present
value also means `is_first_import` is false), `running_sum` and
`last_reset_ts`. -/
structure ImpState where
  prev : Option ℚ
  sum : ℚ
  resetTs : Option ℚ
deriving DecidableEq, Repr

/-- One iteration of the import loop of `async_import_statistics`
(`custom_components/ista_calista/sensor.py`): an absent value is skipped
outright; on a first import the increase is `0.0`; a negative increase is a
meter reset (`running_sum += current_state`, `last_reset` moved to the
reading's timestamp); otherwise `running_sum += increase`. -/
def stepImport (st : ImpState) (r : Reading) : ImpState × List StatPoint :=
  match r.value with
  | none => (st, [])
  | some v =>
    let inc : ℚ :=
      match st.prev with
      | none => 0
      | some p => v - p
    if inc < 0 then
      (⟨some v, st.sum + v, some r.date⟩,
        [⟨r.date, v, st.sum + v, truthyTs (some r.date)⟩])
    else
      (⟨some v, st.sum + inc, st.resetTs⟩,
        [⟨r.date, v, st.sum + inc, truthyTs st.resetTs⟩])

/-- The import loop over the candidate readings. -/
def runImport (st : ImpState) : List Reading → List StatPoint
  | [] => []
  | r :: rest =>
    (stepImport st r).2 ++ runImport (stepImport st r).1 rest

/-- The candidate selection of `async_import_statistics`: readings whose
timestamp is strictly after the stored end timestamp, sorted by date. -/
def selectCandidates (history : List Reading) (row : Option LastStat) : List Reading :=
  sortByDate (history.filter (fun r => decide (rowEnd row < r.date)))

/-- The body of `async_import_statistics` after candidate selection: return
empty on no candidates, otherwise initialise `last_reset_ts` (falling back to
the first candidate's timestamp) and `last_state` (falling back to the
in-history baseline) and run the accumulation loop. -/
def importFrom (history : List Reading) (row : Option LastStat) :
    List Reading → List StatPoint
  | [] => []
  | first :: rest =>
    runImport
      ⟨(match rowState row with
        | some s => some s
        | none => baselineState history first.date),
        rowSum row,
        (match rowReset row with
        | some t => some t
        | none => some first.date)⟩
      (first :: rest)

/-- `async_import_statistics` of
`custom_components/ista_calista/sensor.py`, as a function from the device
history and the recovered last-statistics row to the list of emitted
statistic points. -/
def importStatistics (history : List Reading) (row : Option LastStat) : List StatPoint :=
  importFrom history row (selectCandidates history row)

/-- The checkpoint implicitly persisted by a run: the tail point's `start`,
`state`, `sum` and `last_reset` become the next run's `end`, `state`, `sum`
and `last_reset`. -/
def tailCheckpoint (p : StatPoint) : LastStat :=
  ⟨some p.start, some p.state, some p.sum, p.lastReset⟩

/-- A device history satisfying the `DeviceSet` invariant: strictly
ascending (and therefore timestamp-unique) dates. -/
def HistSortedNodup (h : List Reading) : Prop := List.Pairwise rlt h

/-- The `DeviceSet` invariant from the data model: serials are unique (it is
a `dict`), and every device history is sorted strictly ascending by
timestamp. -/
def DeviceSetInv (ds : DeviceSet) : Prop :=
  (ds.map Prod.fst).Nodup ∧ ∀ p ∈ ds, HistSortedNodup p.2.history

instance : DecidablePred HistSortedNodup := fun h =>
  inferInstanceAs (Decidable (List.Pairwise rlt h))

instance : DecidablePred DeviceSetInv := fun ds =>
  inferInstanceAs
    (Decidable ((ds.map Prod.fst).Nodup ∧ ∀ p ∈ ds, HistSortedNodup p.2.history))

/-- The last reading of a list carrying a given date, mirroring the
last-write-wins behaviour of repeated dict assignment. -/
def lastAt : List Reading → ℚ → Option Reading
  | [], _ => none
  | r :: t, d =>
    match lastAt t d with
    | some x => some x
    | none => if r.date = d then some r else none

/-- The keys of a timestamp dictionary. -/
def keysOf (m : HistDict) : List ℚ := m.map Prod.fst

/-- Each stored pair keys the reading by its own date. -/
def KVConsistent (m : HistDict) : Prop := ∀ q ∈ m, q.2.date = q.1

theorem keysOf_upsert (m : HistDict) (r : Reading) :
    keysOf (upsert m r) =
      if r.date ∈ keysOf m then keysOf m else keysOf m ++ [r.date] := by
  induction m with
  | nil => simp [upsert, keysOf]
  | cons q t ih =>
    obtain ⟨k, v⟩ := q
    by_cases hk : k = r.date
    · subst hk
      simp [upsert, keysOf]
    · have hk' : r.date ≠ k := fun h => hk h.symm
      simp only [upsert, if_neg hk, keysOf, List.map_cons, List.mem_cons]
      rw [keysOf, keysOf] at ih
      by_cases hmem : r.date ∈ t.map Prod.fst
      · rw [if_pos hmem] at ih
        rw [ih, if_pos (Or.inr hmem)]
      · rw [if_neg hmem] at ih
        rw [ih, if_neg (by simp [hk', hmem])]
        simp

theorem nodupKeys_upsert (m : HistDict) (r : Reading)
    (h : (keysOf m).Nodup) : (keysOf (upsert m r)).Nodup := by
  rw [keysOf_upsert]
  by_cases hmem : r.date ∈ keysOf m
  · simpa [hmem]
  · simp [hmem, List.nodup_append, h]

theorem kv_upsert (m : HistDict) (r : Reading)
    (h : KVConsistent m) : KVConsistent (upsert m r) := by
  induction m with
  | nil =>
    intro q hq
    simp only [upsert, List.mem_singleton] at hq
    simp [hq]
  | cons p t ih =>
    obtain ⟨k, v⟩ := p
    have ht : KVConsistent t := fun q hq => h q (List.mem_cons_of_mem _ hq)
    intro q hq
    by_cases hk : k = r.date
    · rw [upsert, if_pos hk] at hq
      rcases List.mem_cons.mp hq with hq' | hq'
      · rw [hq']
        exact hk.symm
      · exact h q (List.mem_cons_of_mem _ hq')
    · rw [upsert, if_neg hk] at hq
      rcases List.mem_cons.mp hq with hq' | hq'
      · exact h q (hq' ▸ List.mem_cons_self _ _)
      · exact ih ht q hq'

theorem nodupKeys_foldl (l : List Reading) :
    ∀ m : HistDict, (keysOf m).Nodup → (keysOf (l.foldl upsert m)).Nodup := by
  induction l with
  | nil => intro m h; simpa using h
  | cons r t ih =>
    intro m h
    exact ih (upsert m r) (nodupKeys_upsert m r h)

theorem kv_foldl (l : List Reading) :
    ∀ m : HistDict, KVConsistent m → KVConsistent (l.foldl upsert m) := by
  induction l with
  | nil => intro m h; simpa using h
  | cons r t ih =>
    intro m h
    exact ih (upsert m r) (kv_upsert m r h)

theorem dlookup_upsert (m : HistDict) (r : Reading) (d : ℚ) :
    dlookup d (upsert m r) = if r.date = d then some r else dlookup d m := by
  induction m with
  | nil => simp [upsert, dlookup]
  | cons q t ih =>
    obtain ⟨k, v⟩ := q
    by_cases hk : k = r.date
    · rw [upsert, if_pos hk]
      by_cases hd : k = d
      · rw [dlookup, if_pos hd, dlookup, if_pos hd, if_pos (hk ▸ hd)]
      · rw [dlookup, if_neg hd, dlookup, if_neg hd,
          if_neg (fun h => hd (hk.trans h))]
    · rw [upsert, if_neg hk]
      by_cases hd : k = d
      · rw [dlookup, if_pos hd, dlookup, if_pos hd,
          if_neg (fun h => hk (hd.trans h.symm))]
      · rw [dlookup, if_neg hd, dlookup, if_neg hd, ih]

theorem dlookup_foldl (l : List Reading) :
    ∀ (m : HistDict) (d : ℚ),
      dlookup d (l.foldl upsert m) =
        match lastAt l d with
        | some r => some r
        | none => dlookup d m := by
  induction l with
  | nil => intro m d; simp [lastAt]
  | cons r t ih =>
    intro m d
    simp only [List.foldl_cons, ih, lastAt]
    cases h : lastAt t d with
    | some x => simp
    | none =>
      simp only [dlookup_upsert]
      by_cases hd : r.date = d <;> simp [hd]

theorem dlookup_histDict (l : List Reading) (d : ℚ) :
    dlookup d (histDict l) = lastAt l d := by
  rw [histDict, dlookup_foldl]
  cases h : lastAt l d <;> simp [dlookup]

theorem dlookup_mergedDict (old new : List Reading) (d : ℚ) :
    dlookup d (mergedDict old new) =
      match lastAt new d with
      | some r => some r
      | none => lastAt old d := by
  rw [mergedDict, dlookup_foldl]
  cases h : lastAt new d <;> simp [dlookup_histDict]

theorem nodupKeys_mergedDict (old new : List Reading) :
    (keysOf (mergedDict old new)).Nodup :=
  nodupKeys_foldl new (histDict old)
    (nodupKeys_foldl old [] (by simp [keysOf]))

theorem kv_mergedDict (old new : List Reading) :
    KVConsistent (mergedDict old new) :=
  kv_foldl new (histDict old) (kv_foldl old [] (by intro q hq; simp at hq))

theorem dlookup_date {m : HistDict} (hkv : KVConsistent m) {d : ℚ} {r : Reading}
    (h : dlookup d m = some r) : r.date = d := by
  induction m with
  | nil => simp [dlookup] at h
  | cons q t ih =>
    obtain ⟨k, v⟩ := q
    have htv : KVConsistent t := fun q hq => hkv q (List.mem_cons_of_mem _ hq)
    by_cases hk : k = d
    · subst hk
      rw [dlookup, if_pos rfl] at h
      have hv : v = r := by simpa using h
      subst hv
      exact hkv (k, v) (List.mem_cons_self _ _)
    · rw [dlookup, if_neg hk] at h
      exact ih htv h

theorem lastAt_mem {l : List Reading} {d : ℚ} {r : Reading}
    (h : lastAt l d = some r) : r ∈ l ∧ r.date = d := by
  induction l with
  | nil => simp [lastAt] at h
  | cons a t ih =>
    simp only [lastAt] at h
    cases ht : lastAt t d with
    | some x =>
      rw [ht] at h
      simp only [Option.some_inj] at h
      subst h
      exact ⟨List.mem_cons_of_mem _ (ih ht).1, (ih ht).2⟩
    | none =>
      rw [ht] at h
      by_cases hd : a.date = d
      · simp only [if_pos hd, Option.some_inj] at h
        subst h
        exact ⟨List.mem_cons_self _ _, hd⟩
      · simp [if_neg hd] at h

theorem lastAt_eq_none {l : List Reading} {d : ℚ} :
    lastAt l d = none ↔ ∀ r ∈ l, r.date ≠ d := by
  induction l with
  | nil => simp [lastAt]
  | cons a t ih =>
    simp only [lastAt, List.mem_cons]
    cases ht : lastAt t d with
    | some x =>
      simp only [reduceCtorEq, false_iff]
      intro hall
      have := (lastAt_mem ht).2
      exact hall x (Or.inr (lastAt_mem ht).1) this
    | none =>
      by_cases hd : a.date = d
      · simp only [if_pos hd, reduceCtorEq, false_iff]
        intro hall
        exact hall a (Or.inl rfl) hd
      · simp only [if_neg hd]
        constructor
        · intro _ r hr
          rcases hr with hr | hr
          · subst hr; exact hd
          · exact (ih.mp ht) r hr
        · intro _; trivial

theorem lastAt_of_nodup {l : List Reading}
    (hnd : (l.map Reading.date).Nodup) {r : Reading} (hr : r ∈ l) :
    lastAt l r.date = some r := by
  induction l with
  | nil => simp at hr
  | cons a t ih =>
    have hnd' : (t.map Reading.date).Nodup := (List.nodup_cons.mp hnd).2
    have hna : a.date ∉ t.map Reading.date := by
      simpa using (List.nodup_cons.mp hnd).1
    rcases List.mem_cons.mp hr with hr | hr
    · subst hr
      have ht : lastAt t r.date = none := by
        rw [lastAt_eq_none]
        intro x hx hxd
        exact hna (by simpa [hxd] using List.mem_map_of_mem Reading.date hx)
      simp [lastAt, ht]
    · have ht := ih hnd' hr
      simp [lastAt, ht]

theorem values_dates {m : HistDict} (hkv : KVConsistent m) :
    (m.map Prod.snd).map Reading.date = keysOf m := by
  rw [keysOf, List.map_map]
  exact List.map_congr_left fun q hq => hkv q hq

theorem date_mem_keys_of_mem_values {m : HistDict} (hkv : KVConsistent m)
    {r : Reading} (h : r ∈ m.map Prod.snd) : r.date ∈ keysOf m := by
  obtain ⟨q, hq, hqr⟩ := List.mem_map.mp h
  have := hkv q hq
  rw [← hqr, this]
  exact List.mem_map_of_mem Prod.fst hq

theorem dlookup_mem {m : HistDict} {d : ℚ} {r : Reading}
    (h : dlookup d m = some r) : r ∈ m.map Prod.snd := by
  induction m with
  | nil => simp [dlookup] at h
  | cons q t ih =>
    obtain ⟨k, v⟩ := q
    by_cases hk : k = d
    · rw [dlookup, if_pos hk] at h
      have : v = r := by simpa using h
      simp [this]
    · rw [dlookup, if_neg hk] at h
      simp [ih h]

theorem count_values {m : HistDict} (hk : (keysOf m).Nodup)
    (hkv : KVConsistent m) (r : Reading) :
    (m.map Prod.snd).count r = if dlookup r.date m = some r then 1 else 0 := by
  induction m with
  | nil => simp [dlookup]
  | cons q t ih =>
    obtain ⟨k, v⟩ := q
    have hkt : (keysOf t).Nodup := (List.nodup_cons.mp hk).2
    have hkn : k ∉ keysOf t := by
      simpa [keysOf] using (List.nodup_cons.mp hk).1
    have htv : KVConsistent t := fun q hq => hkv q (List.mem_cons_of_mem _ hq)
    have hvk : v.date = k := hkv (k, v) (List.mem_cons_self _ _)
    simp only [List.map_cons, List.count_cons, ih hkt htv]
    by_cases hd : k = r.date
    · have hnotmem : r ∉ t.map Prod.snd := by
        intro hmem
        exact hkn (hd ▸ date_mem_keys_of_mem_values htv hmem)
      have hdl : dlookup r.date t ≠ some r := fun hcon => hnotmem (dlookup_mem hcon)
      rw [dlookup, if_pos hd]
      by_cases hvr : v = r
      · simp [hvr, hdl]
      · simp [hvr, hdl]
    · have hvr : v ≠ r := fun h => hd (by rw [← hvk, h])
      rw [dlookup, if_neg hd]
      simp [hvr]

theorem mem_values_iff {m : HistDict} (hk : (keysOf m).Nodup)
    (hkv : KVConsistent m) (r : Reading) :
    r ∈ m.map Prod.snd ↔ dlookup r.date m = some r := by
  rw [← List.count_pos_iff, count_values hk hkv]
  by_cases h : dlookup r.date m = some r <;> simp [h]

theorem values_perm_of_dlookup_eq {m₁ m₂ : HistDict}
    (hk₁ : (keysOf m₁).Nodup) (hkv₁ : KVConsistent m₁)
    (hk₂ : (keysOf m₂).Nodup) (hkv₂ : KVConsistent m₂)
    (h : ∀ d, dlookup d m₁ = dlookup d m₂) :
    List.Perm (m₁.map Prod.snd) (m₂.map Prod.snd) := by
  rw [List.perm_iff_count]
  intro r
  rw [count_values hk₁ hkv₁, count_values hk₂ hkv₂, h r.date]

theorem sorted_rle_sortByDate (l : List Reading) :
    List.Sorted rle (sortByDate l) :=
  List.sorted_insertionSort rle l

theorem perm_sortByDate (l : List Reading) :
    List.Perm (sortByDate l) l :=
  List.perm_insertionSort rle l

theorem pairwise_rlt_of_sorted {l : List Reading}
    (hs : List.Sorted rle l) (hnd : (l.map Reading.date).Nodup) :
    List.Pairwise rlt l := by
  have hne : List.Pairwise (fun a b : Reading => a.date ≠ b.date) l :=
    List.pairwise_map.mp hnd
  exact (hs.and hne).imp fun h => lt_of_le_of_ne h.1 h.2

theorem dates_sortByDate_nodup {l : List Reading}
    (hnd : (l.map Reading.date).Nodup) :
    ((sortByDate l).map Reading.date).Nodup :=
  (((perm_sortByDate l).map Reading.date).nodup_iff).mpr hnd

theorem pairwise_rlt_sortByDate {l : List Reading}
    (hnd : (l.map Reading.date).Nodup) :
    List.Pairwise rlt (sortByDate l) :=
  pairwise_rlt_of_sorted (sorted_rle_sortByDate l) (dates_sortByDate_nodup hnd)

theorem sortByDate_eq_of_perm {l₁ l₂ : List Reading}
    (hp : List.Perm l₁ l₂) (hnd : (l₁.map Reading.date).Nodup) :
    sortByDate l₁ = sortByDate l₂ := by
  have hnd₂ : (l₂.map Reading.date).Nodup := ((hp.map Reading.date).nodup_iff).mp hnd
  exact List.eq_of_perm_of_sorted
    ((perm_sortByDate l₁).trans (hp.trans (perm_sortByDate l₂).symm))
    (pairwise_rlt_sortByDate hnd) (pairwise_rlt_sortByDate hnd₂)

theorem sortByDate_eq_self {l : List Reading} (h : List.Pairwise rlt l) :
    sortByDate l = l :=
  List.Sorted.insertionSort_eq (h.imp fun hab => le_of_lt hab)

theorem dates_mergeValues_nodup (old new : List Reading) :
    (((mergedDict old new).map Prod.snd).map Reading.date).Nodup := by
  rw [values_dates (kv_mergedDict old new)]
  exact nodupKeys_mergedDict old new

theorem dates_mergeHistories_nodup (old new : List Reading) :
    ((mergeHistories old new).map Reading.date).Nodup :=
  dates_sortByDate_nodup (dates_mergeValues_nodup old new)

theorem pairwise_rlt_mergeHistories (old new : List Reading) :
    List.Pairwise rlt (mergeHistories old new) :=
  pairwise_rlt_sortByDate (dates_mergeValues_nodup old new)

theorem mem_mergeHistories_iff (old new : List Reading) (r : Reading) :
    r ∈ mergeHistories old new ↔ dlookup r.date (mergedDict old new) = some r := by
  rw [mergeHistories, (perm_sortByDate _).mem_iff]
  exact mem_values_iff (nodupKeys_mergedDict old new) (kv_mergedDict old new) r

theorem lastAt_mergeHistories (old new : List Reading) (d : ℚ) :
    lastAt (mergeHistories old new) d = dlookup d (mergedDict old new) := by
  cases h : dlookup d (mergedDict old new) with
  | some r =>
    have hrd : r.date = d := dlookup_date (kv_mergedDict old new) h
    have hmem : r ∈ mergeHistories old new :=
      (mem_mergeHistories_iff old new r).mpr (hrd ▸ h)
    have := lastAt_of_nodup (dates_mergeHistories_nodup old new) hmem
    rw [hrd] at this
    exact this
  | none =>
    rw [lastAt_eq_none]
    intro r hr hrd
    have := (mem_mergeHistories_iff old new r).mp hr
    rw [hrd, h] at this
    exact Option.noConfusion this

theorem dlookup_mergedDict_idem (a b : List Reading) (d : ℚ) :
    dlookup d (mergedDict (mergeHistories a b) b) = dlookup d (mergedDict a b) := by
  rw [dlookup_mergedDict, dlookup_mergedDict]
  cases hb : lastAt b d with
  | some r => rfl
  | none =>
    simp only
    rw [lastAt_mergeHistories, dlookup_mergedDict, hb]

/-- Re-merging the fetched history into an already merged history changes
nothing. -/
theorem mergeHistories_idem (a b : List Reading) :
    mergeHistories (mergeHistories a b) b = mergeHistories a b := by
  have hperm :
      List.Perm ((mergedDict (mergeHistories a b) b).map Prod.snd)
        ((mergedDict a b).map Prod.snd) :=
    values_perm_of_dlookup_eq
      (nodupKeys_mergedDict _ _) (kv_mergedDict _ _)
      (nodupKeys_mergedDict _ _) (kv_mergedDict _ _)
      (dlookup_mergedDict_idem a b)
  calc mergeHistories (mergeHistories a b) b
      = sortByDate ((mergedDict (mergeHistories a b) b).map Prod.snd) := rfl
    _ = sortByDate ((mergedDict a b).map Prod.snd) :=
        sortByDate_eq_of_perm hperm (dates_mergeValues_nodup _ _)
    _ = mergeHistories a b := rfl

/-- Merging a sorted, timestamp-unique history with itself is the identity. -/
theorem dates_nodup_of_pairwise_rlt {l : List Reading}
    (h : List.Pairwise rlt l) : (l.map Reading.date).Nodup :=
  List.pairwise_map.mpr (h.imp fun hab => ne_of_lt hab)

theorem mergeHistories_self {l : List Reading} (h : List.Pairwise rlt l) :
    mergeHistories l l = l := by
  have hnd : (l.map Reading.date).Nodup := dates_nodup_of_pairwise_rlt h
  have hndl : l.Nodup := List.Nodup.of_map Reading.date hnd
  have hperm : List.Perm ((mergedDict l l).map Prod.snd) l := by
    rw [List.perm_iff_count]
    intro r
    rw [count_values (nodupKeys_mergedDict l l) (kv_mergedDict l l)]
    rw [dlookup_mergedDict]
    by_cases hm : r ∈ l
    · have hl : lastAt l r.date = some r := lastAt_of_nodup hnd hm
      rw [hl, List.count_eq_one_of_mem hndl hm]
      simp
    · have hl : ∀ x, lastAt l r.date = some x → x = r → False := by
        intro x hx hxr
        exact hm (hxr ▸ (lastAt_mem hx).1)
      rw [List.count_eq_zero.mpr hm]
      cases hx : lastAt l r.date with
      | some x =>
        simp only
        rw [if_neg]
        intro hcon
        exact hl x hx (by simpa using hcon)
      | none => simp
  calc mergeHistories l l
      = sortByDate ((mergedDict l l).map Prod.snd) := rfl
    _ = sortByDate l := sortByDate_eq_of_perm hperm (dates_mergeValues_nodup l l)
    _ = l := sortByDate_eq_self h

/-- The specification's description of the merged history: the
timestamp-keyed union in which fetched entries override previous entries at
an equal timestamp, re-sorted ascending. -/
def specMergedHistory (old new : List Reading) : List Reading :=
  sortByDate (new ++ old.filter (fun r => decide (r.date ∉ new.map Reading.date)))

/-- On invariant-satisfying histories the merge-engine dictionary pass
computes exactly the specification's override union. -/
theorem mergeHistories_eq_spec {old new : List Reading}
    (hOld : List.Pairwise rlt old) (hNew : List.Pairwise rlt new) :
    mergeHistories old new = specMergedHistory old new := by
  have hndOld : (old.map Reading.date).Nodup := dates_nodup_of_pairwise_rlt hOld
  have hndNew : (new.map Reading.date).Nodup := dates_nodup_of_pairwise_rlt hNew
  have hndlOld : old.Nodup := List.Nodup.of_map Reading.date hndOld
  have hndlNew : new.Nodup := List.Nodup.of_map Reading.date hndNew
  have hperm :
      List.Perm ((mergedDict old new).map Prod.snd)
        (new ++ old.filter (fun r => decide (r.date ∉ new.map Reading.date))) := by
    rw [List.perm_iff_count]
    intro r
    rw [count_values (nodupKeys_mergedDict old new) (kv_mergedDict old new),
      dlookup_mergedDict, List.count_append]
    by_cases hmn : r ∈ new
    · have hl : lastAt new r.date = some r := lastAt_of_nodup hndNew hmn
      have hnf : r ∉ old.filter (fun r => decide (r.date ∉ new.map Reading.date)) := by
        intro hcon
        have := (List.mem_filter.mp hcon).2
        simp only [decide_eq_true_eq] at this
        exact this (List.mem_map_of_mem Reading.date hmn)
      rw [hl, List.count_eq_one_of_mem hndlNew hmn, List.count_eq_zero.mpr hnf]
      simp
    · rw [List.count_eq_zero.mpr hmn]
      by_cases hdn : r.date ∈ new.map Reading.date
      · have hl : lastAt new r.date ≠ none := by
          intro hcon
          rw [lastAt_eq_none] at hcon
          obtain ⟨x, hx, hxd⟩ := List.mem_map.mp hdn
          exact hcon x hx hxd
        have hnf : r ∉ old.filter (fun r => decide (r.date ∉ new.map Reading.date)) := by
          intro hcon
          have := (List.mem_filter.mp hcon).2
          simp only [decide_eq_true_eq] at this
          exact this hdn
        rw [List.count_eq_zero.mpr hnf]
        cases hx : lastAt new r.date with
        | some x =>
          simp only
          rw [if_neg]
          intro hcon
          have hxr : x = r := by simpa using hcon
          exact hmn (hxr ▸ (lastAt_mem hx).1)
        | none => exact absurd hx hl
      · have hl : lastAt new r.date = none := by
          rw [lastAt_eq_none]
          intro x hx hxd
          exact hdn (hxd ▸ List.mem_map_of_mem Reading.date hx)
        rw [hl]
        simp only
        by_cases hmo : r ∈ old
        · have hmf : r ∈ old.filter (fun r => decide (r.date ∉ new.map Reading.date)) :=
            List.mem_filter.mpr ⟨hmo, by simpa using hdn⟩
          have hndf : (old.filter
              (fun r => decide (r.date ∉ new.map Reading.date))).Nodup :=
            hndlOld.filter _
          rw [lastAt_of_nodup hndOld hmo, List.count_eq_one_of_mem hndf hmf]
          simp
        · have hnf : r ∉ old.filter (fun r => decide (r.date ∉ new.map Reading.date)) :=
            fun hcon => hmo (List.mem_of_mem_filter hcon)
          rw [List.count_eq_zero.mpr hnf]
          cases hy : lastAt old r.date with
          | some y =>
            rw [if_neg (show ¬(some y = some r) from fun hcon =>
              hmo ((show y = r by simpa using hcon) ▸ (lastAt_mem hy).1))]
          | none => simp
  exact (sortByDate_eq_of_perm hperm (dates_mergeValues_nodup old new))

theorem alookup_mem {β : Type} {ds : List (String × β)} {s : String} {d : β}
    (h : alookup s ds = some d) : (s, d) ∈ ds := by
  induction ds with
  | nil => simp [alookup] at h
  | cons q t ih =>
    obtain ⟨k, v⟩ := q
    by_cases hk : k = s
    · rw [alookup, if_pos hk] at h
      have : v = d := by simpa using h
      simp [hk, this]
    · rw [alookup, if_neg hk] at h
      simp [ih h]

theorem alookup_self {β : Type} {ds : List (String × β)}
    (hnd : (ds.map Prod.fst).Nodup) {p : String × β} (hp : p ∈ ds) :
    alookup p.1 ds = some p.2 := by
  induction ds with
  | nil => simp at hp
  | cons q t ih =>
    obtain ⟨k, v⟩ := q
    have hkn : k ∉ t.map Prod.fst := by
      simpa using (List.nodup_cons.mp hnd).1
    rcases List.mem_cons.mp hp with hp' | hp'
    · rw [hp']
      simp [alookup]
    · have hne : k ≠ p.1 := by
        intro hk
        exact hkn (hk ▸ List.mem_map_of_mem Prod.fst hp')
      rw [alookup, if_neg hne]
      exact ih (List.nodup_cons.mp hnd).2 hp'

theorem alookup_mergeDeviceSets (prev : DeviceSet) :
    ∀ (l : DeviceSet) (s : String),
      alookup s (mergeDeviceSets prev l) =
        (alookup s l).map (fun d =>
          match alookup s prev with
          | some o => { d with history := mergeHistories o.history d.history }
          | none => d) := by
  intro l
  induction l with
  | nil => intro s; simp [mergeDeviceSets, alookup]
  | cons q t ih =>
    intro s
    obtain ⟨k, d⟩ := q
    rw [mergeDeviceSets, List.map_cons]
    by_cases hk : k = s
    · subst hk
      rw [mergeDevice]
      cases halo : alookup k prev with
      | some o =>
        rw [alookup, if_pos rfl, alookup, if_pos rfl]
        simp [halo]
      | none =>
        rw [alookup, if_pos rfl, alookup, if_pos rfl]
        simp [halo]
    · have hpair : mergeDevice prev (k, d) = (k, (mergeDevice prev (k, d)).2) := by
        simp only [mergeDevice]
        cases halo : alookup (k, d).1 prev <;> simp [halo]
      rw [hpair, alookup, if_neg hk, alookup, if_neg hk]
      rw [mergeDeviceSets] at ih
      exact ih s

/-- Round half to even on rationals, the semantics of Python's builtin
`round` applied to an exact value. -/
def rhe (q : ℚ) : ℤ :=
  if q - ⌊q⌋ < 1/2 then ⌊q⌋
  else if (1 : ℚ)/2 < q - ⌊q⌋ then ⌊q⌋ + 1
  else if ⌊q⌋ % 2 = 0 then ⌊q⌋ else ⌊q⌋ + 1

/-- Python `round(x, 4)`. -/
def round4 (x : ℚ) : ℚ := (rhe (x * 10000) : ℚ) / 10000

/-- The candidate filter of the older `_perform_statistics_update`
(`sensor.py`): value present, non-negative, and strictly after the stored end
timestamp when one exists. -/
def legacyFilter (endTs : Option ℚ) (r : Reading) : Bool :=
  match r.value with
  | none => false
  | some v =>
    decide (0 ≤ v) &&
      (match endTs with
       | none => true
       | some e => decide (e < r.date))

/-- `last_stats_end_ts` of the older variant: no `or 0.0` default, the
column stays absent. -/
def legacyRowEnd (row : Option LastStat) : Option ℚ := row.bind LastStat.endTs

/-- `last_reset_ts` initialisation of the older variant: the stored
`last_reset` when a row exists, else the first history reading's date. -/
def legacyReset0 (history : List Reading) (row : Option LastStat) : Option ℚ :=
  match row with
  | some s => s.lastReset
  | none => (history.head?).map Reading.date

/-- One iteration of the older `_perform_statistics_update` loop: a first
processed reading contributes nothing (and initialises `last_reset` when
absent); a decreased counter resets the sum to the reading's own value; an
increase adds the rounded delta; the sum is then clamped to
`max(0, round(sum, 4))` before being emitted, and the emitted state is
`round(value, 4)`. -/
def legacyStep (st : ImpState) (r : Reading) : ImpState × List StatPoint :=
  match r.value with
  | none => (st, [])
  | some v =>
    match st.prev with
    | none =>
      let reset1 : Option ℚ :=
        match st.resetTs with
        | none => some r.date
        | some t => some t
      let sum2 := max 0 (round4 st.sum)
      (⟨some v, sum2, reset1⟩, [⟨r.date, round4 v, sum2, truthyTs reset1⟩])
    | some p =>
      if v < p then
        let sum2 := max 0 (round4 v)
        (⟨some v, sum2, some r.date⟩, [⟨r.date, round4 v, sum2, truthyTs (some r.date)⟩])
      else
        let sum2 := max 0 (round4 (st.sum + round4 (v - p)))
        (⟨some v, sum2, st.resetTs⟩, [⟨r.date, round4 v, sum2, truthyTs st.resetTs⟩])

/-- The loop of the older `_perform_statistics_update`. -/
def legacyRun (st : ImpState) : List Reading → List StatPoint
  | [] => []
  | r :: rest =>
    (legacyStep st r).2 ++ legacyRun (legacyStep st r).1 rest

/-- The body of the older `_perform_statistics_update` after candidate
selection. -/
def performFrom (history : List Reading) (row : Option LastStat) :
    List Reading → List StatPoint
  | [] => []
  | first :: rest =>
    legacyRun ⟨rowState row, rowSum row, legacyReset0 history row⟩ (first :: rest)

/-- `_perform_statistics_update` of the older snapshot `sensor.py`, from the
device history and the recovered last-statistics row to the emitted points. -/
def performStatisticsUpdate (history : List Reading) (row : Option LastStat) :
    List StatPoint :=
  performFrom history row
    (sortByDate (history.filter (legacyFilter (legacyRowEnd row))))

theorem rhe_intCast (n : ℤ) : rhe (n : ℚ) = n := by
  rw [rhe, Int.floor_intCast]
  norm_num

theorem round4_round4 (x : ℚ) : round4 (round4 x) = round4 x := by
  rw [round4, round4, div_mul_cancel₀ _ (by norm_num : (10000 : ℚ) ≠ 0), rhe_intCast]

theorem round4_zero : round4 0 = 0 := by
  rw [round4]
  norm_num [rhe]

theorem clampRound_idem (x : ℚ) :
    max 0 (round4 (max 0 (round4 x))) = max 0 (round4 x) := by
  rcases le_or_lt (round4 x) 0 with h | h
  · rw [max_eq_left h, round4_zero, max_self]
  · rw [max_eq_right (le_of_lt h), round4_round4, max_eq_right (le_of_lt h)]

theorem legacyRun_sum_shape (l : List Reading) :
    ∀ (st : ImpState) (p : StatPoint), p ∈ legacyRun st l →
      ∃ x, p.sum = max 0 (round4 x) := by
  induction l with
  | nil => intro st p hp; simp [legacyRun] at hp
  | cons r t ih =>
    intro st p hp
    cases hv : r.value with
    | none =>
      rw [legacyRun] at hp
      simp only [legacyStep, hv, List.nil_append] at hp
      exact ih st p hp
    | some v =>
      rw [legacyRun] at hp
      cases hprev : st.prev with
      | none =>
        simp only [legacyStep, hv, hprev, List.cons_append, List.nil_append,
          List.mem_cons] at hp
        rcases hp with hp | hp
        · exact ⟨st.sum, by rw [hp]⟩
        · exact ih _ p hp
      | some q =>
        simp only [legacyStep, hv, hprev] at hp
        by_cases hlt : v < q
        · rw [if_pos hlt] at hp
          simp only [List.cons_append, List.nil_append, List.mem_cons] at hp
          rcases hp with hp | hp
          · exact ⟨v, by rw [hp]⟩
          · exact ih _ p hp
        · rw [if_neg hlt] at hp
          simp only [List.cons_append, List.nil_append, List.mem_cons] at hp
          rcases hp with hp | hp
          · exact ⟨st.sum + round4 (v - q), by rw [hp]⟩
          · exact ih _ p hp

theorem runImport_all_none (l : List Reading) :
    ∀ st : ImpState, (∀ r ∈ l, r.value = none) → runImport st l = [] := by
  induction l with
  | nil => intro st _; rfl
  | cons r t ih =>
    intro st h
    have hv : r.value = none := h r (List.mem_cons_self _ _)
    rw [runImport]
    simp only [stepImport, hv, List.nil_append]
    exact ih st fun x hx => h x (List.mem_cons_of_mem _ hx)

theorem runImport_starts (l : List Reading) :
    ∀ st : ImpState,
      (runImport st l).map StatPoint.start =
        (l.filter (fun r => r.value.isSome)).map Reading.date := by
  induction l with
  | nil => intro st; simp [runImport]
  | cons r t ih =>
    intro st
    cases hv : r.value with
    | none =>
      have hfil : (r :: t).filter (fun x => x.value.isSome) =
          t.filter (fun x => x.value.isSome) := by
        rw [List.filter_cons, if_neg (by simp [hv])]
      rw [runImport, hfil]
      simp only [stepImport, hv, List.nil_append]
      exact ih st
    | some v =>
      have hfil : (r :: t).filter (fun x => x.value.isSome) =
          r :: t.filter (fun x => x.value.isSome) := by
        rw [List.filter_cons, if_pos (by simp [hv])]
      rw [runImport, hfil]
      by_cases hneg : (match st.prev with | none => (0 : ℚ) | some p => v - p) < 0
      · simp only [stepImport, hv, if_pos hneg, List.cons_append, List.nil_append,
          List.map_cons]
        rw [ih]
      · simp only [stepImport, hv, if_neg hneg, List.cons_append, List.nil_append,
          List.map_cons]
        rw [ih]

theorem runImport_head_sum (l : List Reading) :
    ∀ st : ImpState, st.prev = none →
      ∀ p, (runImport st l).head? = some p → p.sum = st.sum := by
  induction l with
  | nil => intro st _ p hp; simp [runImport] at hp
  | cons r t ih =>
    intro st hprev p hp
    cases hv : r.value with
    | none =>
      rw [runImport] at hp
      simp only [stepImport, hv, List.nil_append] at hp
      exact ih st hprev p hp
    | some v =>
      rw [runImport] at hp
      simp only [stepImport, hv, hprev] at hp
      rw [if_neg (lt_irrefl 0)] at hp
      simp only [List.cons_append, List.nil_append, List.head?_cons,
        Option.some_inj] at hp
      rw [← hp]
      simp

theorem runImport_sums_chain (l : List Reading) :
    ∀ st : ImpState, (∀ r ∈ l, ∀ v, r.value = some v → 0 ≤ v) →
      List.Chain' (· ≤ ·) (st.sum :: (runImport st l).map StatPoint.sum) := by
  induction l with
  | nil => intro st _; simp [runImport]
  | cons r t ih =>
    intro st h
    have ht : ∀ x ∈ t, ∀ v, x.value = some v → 0 ≤ v :=
      fun x hx => h x (List.mem_cons_of_mem _ hx)
    cases hv : r.value with
    | none =>
      rw [runImport]
      simp only [stepImport, hv, List.nil_append]
      exact ih st ht
    | some v =>
      have h0 : 0 ≤ v := h r (List.mem_cons_self _ _) v hv
      rw [runImport]
      simp only [stepImport, hv]
      by_cases hneg : (match st.prev with | none => (0 : ℚ) | some p => v - p) < 0
      · rw [if_pos hneg]
        simp only [List.cons_append, List.nil_append, List.map_cons]
        exact List.chain'_cons.mpr
          ⟨le_add_of_nonneg_right h0, ih ⟨some v, st.sum + v, some r.date⟩ ht⟩
      · rw [if_neg hneg]
        push_neg at hneg
        simp only [List.cons_append, List.nil_append, List.map_cons]
        exact List.chain'_cons.mpr
          ⟨le_add_of_nonneg_right hneg, ih ⟨some v, st.sum + _, st.resetTs⟩ ht⟩

theorem mem_of_getLast_opt {α : Type} {l : List α} {x : α}
    (h : l.getLast? = some x) : x ∈ l := by
  induction l with
  | nil => simp at h
  | cons a t ih =>
    cases t with
    | nil =>
      have : a = x := by simpa [List.getLast?] using h
      simp [this]
    | cons b t' =>
      rw [List.getLast?_cons_cons] at h
      exact List.mem_cons_of_mem _ (ih h)

theorem pairwise_le_getLast : ∀ {l : List Reading}, List.Pairwise rle l →
    ∀ {x : Reading}, l.getLast? = some x → ∀ a ∈ l, a.date ≤ x.date := by
  intro l
  induction l with
  | nil => intro _ x hx; simp at hx
  | cons b t ih =>
    intro hp x hx a ha
    cases t with
    | nil =>
      have hbx : b = x := by simpa [List.getLast?] using hx
      have hab : a = b := by simpa using ha
      rw [hab, hbx]
    | cons c t' =>
      rw [List.getLast?_cons_cons] at hx
      rcases List.mem_cons.mp ha with hab | hat
      · rw [hab]
        exact (List.pairwise_cons.mp hp).1 x (mem_of_getLast_opt hx)
      · exact ih (List.pairwise_cons.mp hp).2 hx a hat

theorem runImport_getLast_start {l : List Reading} (st : ImpState) {p : StatPoint}
    (hs : List.Pairwise rle l)
    (hlast : (runImport st l).getLast? = some p) :
    (∃ rL ∈ l, rL.value.isSome = true ∧ rL.date = p.start) ∧
    ∀ r ∈ l, r.value.isSome = true → r.date ≤ p.start := by
  have h1 : ((runImport st l).map StatPoint.start).getLast? = some p.start := by
    rw [List.getLast?_map, hlast]
    rfl
  rw [runImport_starts, List.getLast?_map] at h1
  cases hF : (l.filter (fun r => r.value.isSome)).getLast? with
  | none => rw [hF] at h1; simp at h1
  | some rL =>
    rw [hF] at h1
    have hrLd : rL.date = p.start := by simpa using h1
    have hrLmem : rL ∈ l.filter (fun r => r.value.isSome) := mem_of_getLast_opt hF
    have hmf := List.mem_filter.mp hrLmem
    refine ⟨⟨rL, hmf.1, hmf.2, hrLd⟩, ?_⟩
    intro r hr hrs
    have hrmem : r ∈ l.filter (fun r => r.value.isSome) :=
      List.mem_filter.mpr ⟨hr, hrs⟩
    have hle := pairwise_le_getLast (hs.filter _) hF r hrmem
    rw [hrLd] at hle
    exact hle

/-- C1. Reset handling of `async_import_statistics`: when a candidate's value
is strictly below the previous counter value, the step adds the candidate's
own value to the running sum and moves `last_reset` to the candidate's
timestamp; and history `[100, 110, 5]` with no prior checkpoint yields sums
`[0, 10, 15]` with the third point's `last_reset` equal to its own start. -/
theorem claim_C1 :
    (∀ (st : ImpState) (r : Reading) (v p : ℚ),
      r.value = some v → st.prev = some p → v < p →
      stepImport st r =
        (⟨some v, st.sum + v, some r.date⟩,
          [⟨r.date, v, st.sum + v, truthyTs (some r.date)⟩])) ∧
    importStatistics [⟨1, some 100⟩, ⟨2, some 110⟩, ⟨3, some 5⟩] none =
      [⟨1, 100, 0, some 1⟩, ⟨2, 110, 10, some 1⟩, ⟨3, 5, 15, some 3⟩] := by
  constructor
  · intro st r v p hv hprev hlt
    simp only [stepImport, hv, hprev]
    rw [if_pos (by linarith : v - p < 0)]
  · norm_num [importStatistics, selectCandidates, importFrom, runImport, stepImport,
      sortByDate, rle, List.insertionSort, List.orderedInsert, rowEnd, rowSum,
      rowState, rowReset, baselineState, firstIndexAt, truthyTs, orZero]

theorem claim_C1_witness :
    stepImport ⟨some 110, 10, some 1⟩ ⟨3, some 5⟩ =
      (⟨some 5, 10 + 5, some 3⟩, [⟨3, 5, 10 + 5, truthyTs (some 3)⟩]) :=
  claim_C1.1 ⟨some 110, 10, some 1⟩ ⟨3, some 5⟩ 5 110 rfl rfl (by norm_num)

/-- C2. Sum monotonicity: on histories with non-negative values and a
checkpoint with non-negative running sum, the emitted sums are non-decreasing
and start at or above the checkpoint running sum. -/
theorem claim_C2 (history : List Reading) (row : Option LastStat)
    (hvals : ∀ r ∈ history, ∀ v, r.value = some v → 0 ≤ v)
    (_hsum : 0 ≤ rowSum row) :
    List.Chain' (· ≤ ·) ((importStatistics history row).map StatPoint.sum) ∧
    ∀ p, (importStatistics history row).head? = some p → rowSum row ≤ p.sum := by
  have hmemAll : ∀ r ∈ selectCandidates history row, ∀ v, r.value = some v → 0 ≤ v := by
    intro r hr v hrv
    exact hvals r (List.mem_of_mem_filter ((perm_sortByDate _).mem_iff.mp hr)) v hrv
  rw [importStatistics]
  cases hsel : selectCandidates history row with
  | nil => simp [importFrom]
  | cons first rest =>
    rw [hsel] at hmemAll
    rw [importFrom]
    have hchain := runImport_sums_chain (first :: rest)
      ⟨(match rowState row with
        | some s => some s
        | none => baselineState history first.date),
        rowSum row,
        (match rowReset row with
        | some t => some t
        | none => some first.date)⟩ hmemAll
    constructor
    · exact hchain.tail
    · intro p hp
      have hh := (List.chain'_cons'.mp hchain).1 p.sum
      apply hh
      rw [List.head?_map, hp]
      rfl

theorem claim_C2_witness :
    List.Chain' (· ≤ ·) ((importStatistics [⟨1, some 5⟩] none).map StatPoint.sum) ∧
    rowSum none ≤ (⟨1, 5, 0, some 1⟩ : StatPoint).sum := by
  have hvals : ∀ r ∈ [(⟨1, some 5⟩ : Reading)], ∀ v, r.value = some v → 0 ≤ v := by
    intro r hr v hv
    have hr' : r = ⟨1, some 5⟩ := by simpa using hr
    rw [hr'] at hv
    have hv' : (5 : ℚ) = v := by simpa using hv
    rw [← hv']
    norm_num
  have hsum : (0 : ℚ) ≤ rowSum none := le_refl 0
  refine ⟨(claim_C2 [⟨1, some 5⟩] none hvals hsum).1,
    (claim_C2 [⟨1, some 5⟩] none hvals hsum).2 ⟨1, 5, 0, some 1⟩ ?_⟩
  norm_num [importStatistics, selectCandidates, importFrom, runImport, stepImport,
    sortByDate, rle, List.insertionSort, List.orderedInsert, rowEnd, rowSum,
    rowState, rowReset, baselineState, firstIndexAt, truthyTs, orZero]

/-- C3. Idempotent replay: running the importer again with the checkpoint
taken from the tail point of the previous run's output (start, state, sum,
last_reset as end, state, sum, last_reset) emits no new points. -/
theorem claim_C3 (history : List Reading) (row : Option LastStat) (p : StatPoint)
    (hlast : (importStatistics history row).getLast? = some p) :
    importStatistics history (some (tailCheckpoint p)) = [] := by
  cases hsel : selectCandidates history row with
  | nil =>
    rw [importStatistics, hsel] at hlast
    simp [importFrom] at hlast
  | cons first rest =>
    rw [importStatistics, hsel, importFrom] at hlast
    have hsorted : List.Sorted rle (first :: rest) := by
      rw [← hsel]
      exact sorted_rle_sortByDate _
    obtain ⟨⟨rL, hrLl, hrLs, hrLd⟩, hle⟩ :=
      runImport_getLast_start _ hsorted hlast
    have hrLcand : rL ∈ selectCandidates history row := by
      rw [hsel]
      exact hrLl
    have hrLfil : rL ∈ history.filter (fun r => decide (rowEnd row < r.date)) :=
      (perm_sortByDate _).mem_iff.mp hrLcand
    have hend : rowEnd row < rL.date := by
      have h2 := (List.mem_filter.mp hrLfil).2
      simpa using h2
    have hkey : ∀ r ∈ history, p.start < r.date → r.value = none := by
      intro r hr hgt
      cases hrv : r.value with
      | none => rfl
      | some v =>
        have hrfil : r ∈ history.filter (fun x => decide (rowEnd row < x.date)) :=
          List.mem_filter.mpr ⟨hr, by
            simp only [decide_eq_true_eq]
            linarith⟩
        have hrcand : r ∈ (first :: rest) := by
          rw [← hsel]
          exact (perm_sortByDate _).mem_iff.mpr hrfil
        have hrle := hle r hrcand (by simp [hrv])
        linarith
    rw [importStatistics]
    have hall : ∀ r ∈ selectCandidates history (some (tailCheckpoint p)),
        r.value = none := by
      intro r hr
      have hrfil := (perm_sortByDate _).mem_iff.mp hr
      have hrh : r ∈ history := List.mem_of_mem_filter hrfil
      have hgt : rowEnd (some (tailCheckpoint p)) < r.date := by
        have h2 := (List.mem_filter.mp hrfil).2
        simpa using h2
      exact hkey r hrh hgt
    cases hsel2 : selectCandidates history (some (tailCheckpoint p)) with
    | nil => simp [importFrom]
    | cons f2 r2 =>
      rw [hsel2] at hall
      rw [importFrom]
      exact runImport_all_none (f2 :: r2) _ hall

theorem claim_C3_witness :
    importStatistics [⟨1, some 5⟩] (some (tailCheckpoint ⟨1, 5, 0, some 1⟩)) = [] := by
  apply claim_C3 [⟨1, some 5⟩] none ⟨1, 5, 0, some 1⟩
  norm_num [importStatistics, selectCandidates, importFrom, runImport, stepImport,
    sortByDate, rle, List.insertionSort, List.orderedInsert, rowEnd, rowSum,
    rowState, rowReset, baselineState, firstIndexAt, truthyTs, orZero, List.getLast?]

/-- C4, counterexample to the claim as stated: a checkpoint with
`last_counter_state` absent but `last_processed_end` positioned after an
older in-history reading makes the importer take that older reading as the
baseline, so the first candidate's contribution is `95`, not `0`, and the
run is not treated as a first import. -/
theorem claim_C4_counterexample :
    rowState (some ⟨some 2, none, some 0, some 1⟩) = none ∧
    rowSum (some ⟨some 2, none, some 0, some 1⟩) = 0 ∧
    (importStatistics [⟨1, some 5⟩, ⟨3, some 100⟩]
        (some ⟨some 2, none, some 0, some 1⟩)).map StatPoint.sum = [95] ∧
    (95 : ℚ) ≠ 0 := by
  refine ⟨rfl, rfl, ?_, by norm_num⟩
  norm_num [importStatistics, selectCandidates, importFrom, runImport, stepImport,
    sortByDate, rle, List.insertionSort, List.orderedInsert, rowEnd, rowSum,
    rowState, rowReset, baselineState, firstIndexAt, truthyTs, orZero]

/-- C4 (amended): whenever the checkpoint's `last_counter_state` is absent
AND no reading of the (sorted) history precedes the first candidate — in
particular whenever there is no checkpoint at all and all timestamps are
positive — the run is a genuine first import: the first emitted point's sum
equals the checkpoint running sum (zero contribution); and history
`[1000, 1050.5]` with no checkpoint emits sums `[0, 50.5]`. -/
theorem claim_C4 :
    (∀ (history : List Reading) (row : Option LastStat),
      rowState row = none →
      HistSortedNodup history →
      (∀ r ∈ history, rowEnd row < r.date) →
      ∀ p, (importStatistics history row).head? = some p → p.sum = rowSum row) ∧
    (importStatistics [⟨1, some 1000⟩, ⟨2, some (2101/2)⟩] none).map StatPoint.sum =
      [0, 101/2] := by
  constructor
  · intro history row hstate hsorted hafter p hp
    have hfil : history.filter (fun r => decide (rowEnd row < r.date)) = history :=
      List.filter_eq_self.mpr fun r hr => by simpa using hafter r hr
    have hsel : selectCandidates history row = history := by
      rw [selectCandidates, hfil]
      exact sortByDate_eq_self hsorted
    rw [importStatistics, hsel] at hp
    cases history with
    | nil => simp [importFrom] at hp
    | cons first rest =>
      rw [importFrom] at hp
      have hbase : baselineState (first :: rest) first.date = none := by
        simp [baselineState, firstIndexAt]
      exact runImport_head_sum (first :: rest) _ (by simp [hstate, hbase]) p hp
  · norm_num [importStatistics, selectCandidates, importFrom, runImport, stepImport,
      sortByDate, rle, List.insertionSort, List.orderedInsert, rowEnd, rowSum,
      rowState, rowReset, baselineState, firstIndexAt, truthyTs, orZero]

theorem claim_C4_witness :
    (⟨1, 5, 0, some 1⟩ : StatPoint).sum = rowSum none := by
  apply claim_C4.1 [⟨1, some 5⟩] none rfl
  · simp [HistSortedNodup]
  · intro r hr
    have hr' : r = ⟨1, some 5⟩ := by simpa using hr
    rw [hr']
    norm_num [rowEnd]
  · norm_num [importStatistics, selectCandidates, importFrom, runImport, stepImport,
      sortByDate, rle, List.insertionSort, List.orderedInsert, rowEnd, rowSum,
      rowState, rowReset, baselineState, firstIndexAt, truthyTs, orZero]

/-- C5. Merge idempotence: for DeviceSets satisfying the data-model
invariant, `merge(merge(A, B), B) = merge(A, B)`. -/
theorem claim_C5 (A B : DeviceSet) (_hA : DeviceSetInv A) (hB : DeviceSetInv B) :
    mergeDeviceSets (mergeDeviceSets A B) B = mergeDeviceSets A B := by
  have hmain : ∀ p ∈ B, mergeDevice (mergeDeviceSets A B) p = mergeDevice A p := by
    intro p hp
    have hpB : alookup p.1 B = some p.2 := alookup_self hB.1 hp
    have hlook := alookup_mergeDeviceSets A B p.1
    rw [hpB] at hlook
    cases hA' : alookup p.1 A with
    | some o =>
      simp only [hA', Option.map_some'] at hlook
      simp only [mergeDevice, hlook, hA']
      rw [mergeHistories_idem]
    | none =>
      simp only [hA', Option.map_some'] at hlook
      simp only [mergeDevice, hlook, hA']
      have hhist : HistSortedNodup p.2.history := hB.2 p hp
      rw [mergeHistories_self hhist]
  rw [mergeDeviceSets, mergeDeviceSets]
  exact List.map_congr_left hmain

def wdevA : Device := ⟨DeviceKind.heating, "a", none, [⟨1, some 10⟩, ⟨2, some 11⟩]⟩

def wdevB : Device :=
  ⟨DeviceKind.heating, "a", some "kitchen", [⟨2, some 12⟩, ⟨3, some 13⟩]⟩

def wdevC : Device := ⟨DeviceKind.coldWater, "b", none, [⟨1, some 7⟩]⟩

theorem claim_C5_witness :
    mergeDeviceSets
        (mergeDeviceSets [("a", wdevA)] [("a", wdevB), ("b", wdevC)])
        [("a", wdevB), ("b", wdevC)] =
      mergeDeviceSets [("a", wdevA)] [("a", wdevB), ("b", wdevC)] :=
  claim_C5 [("a", wdevA)] [("a", wdevB), ("b", wdevC)] (by decide) (by decide)

/-- C6. For a serial present in both maps, the merged history is the
timestamp-keyed union where fetched overrides previous, re-sorted ascending
(stated as equality with the specification-side union); and merging two
one-point histories sharing timestamp `5` keeps exactly the fetched value. -/
theorem claim_C6 :
    (∀ (previous fetched : DeviceSet) (s : String) (o n : Device),
      DeviceSetInv previous → DeviceSetInv fetched →
      alookup s previous = some o → alookup s fetched = some n →
      ∃ m, alookup s (mergeDeviceSets previous fetched) = some m ∧
        m.history = specMergedHistory o.history n.history) ∧
    mergeHistories [⟨5, some 1⟩] [⟨5, some 2⟩] = [⟨5, some 2⟩] := by
  constructor
  · intro previous fetched s o n hP hF ho hn
    have hlook := alookup_mergeDeviceSets previous fetched s
    rw [hn] at hlook
    simp only [ho, Option.map_some'] at hlook
    refine ⟨_, hlook, ?_⟩
    have hOld : HistSortedNodup o.history := hP.2 (s, o) (alookup_mem ho)
    have hNew : HistSortedNodup n.history := hF.2 (s, n) (alookup_mem hn)
    exact mergeHistories_eq_spec hOld hNew
  · norm_num [mergeHistories, mergedDict, histDict, upsert, sortByDate, rle,
      List.insertionSort, List.orderedInsert]

theorem claim_C6_witness :
    ∃ m, alookup "a" (mergeDeviceSets [("a", wdevA)] [("a", wdevB)]) = some m ∧
      m.history = specMergedHistory wdevA.history wdevB.history :=
  claim_C6.1 [("a", wdevA)] [("a", wdevB)] "a" wdevA wdevB
    (by decide) (by decide) (by decide) (by decide)

def devC7 : Device := ⟨DeviceKind.coldWater, "s1", none, [⟨1, some 5⟩]⟩

/-- C7, counterexample to the claim as stated: with a non-empty held device
map, a non-initial cycle whose fetch returns an empty map yields an empty
device map — the held histories are erased. -/
theorem claim_C7_counterexample :
    isInitialFetch (some [("s1", devC7)]) = false ∧
    updateData (some [("s1", devC7)]) [] = [] ∧
    alookup "s1" (updateData (some [("s1", devC7)]) []) = none := by
  refine ⟨rfl, rfl, rfl⟩

/-- C7 (amended): an empty fetched map on a cycle with previously held data
clears the coordinator's device map (so the held histories are dropped), but
the resulting empty map makes the next cycle an initial full-backfill fetch. -/
theorem claim_C7 (ds : DeviceSet) (hne : ds ≠ []) :
    isInitialFetch (some ds) = false ∧
    updateData (some ds) [] = [] ∧
    isInitialFetch (some (updateData (some ds) [])) = true := by
  have hfalse : isInitialFetch (some ds) = false := by
    cases ds with
    | nil => exact absurd rfl hne
    | cons a t => rfl
  refine ⟨hfalse, ?_, ?_⟩
  · simp [updateData, hfalse, mergeDeviceSets]
  · simp [updateData, hfalse, mergeDeviceSets, isInitialFetch]

theorem claim_C7_witness :
    isInitialFetch (some [("s1", devC7)]) = false ∧
    updateData (some [("s1", devC7)]) [] = [] ∧
    isInitialFetch (some (updateData (some [("s1", devC7)]) [])) = true :=
  claim_C7 [("s1", devC7)] (by simp)

/-- C8. Absent values are skipped without touching the state (no
`previous_value` update, no `running_sum` update, never a reset), and history
`[500, None, 510]` yields exactly the two points with sums `[0, 10]`. -/
theorem claim_C8 :
    (∀ (st : ImpState) (d : ℚ), stepImport st ⟨d, none⟩ = (st, [])) ∧
    importStatistics [⟨1, some 500⟩, ⟨2, none⟩, ⟨3, some 510⟩] none =
      [⟨1, 500, 0, some 1⟩, ⟨3, 510, 10, some 1⟩] := by
  constructor
  · intro st d
    rfl
  · norm_num [importStatistics, selectCandidates, importFrom, runImport, stepImport,
      sortByDate, rle, List.insertionSort, List.orderedInsert, rowEnd, rowSum,
      rowState, rowReset, baselineState, firstIndexAt, truthyTs, orZero]

/-- C9. In `_perform_statistics_update` (`sensor.py`), every emitted
point's sum has been clamped and rounded: it equals
`max(0, round(sum, 4))` of itself, for every history and checkpoint. -/
theorem claim_C9 (history : List Reading) (row : Option LastStat) (p : StatPoint)
    (hp : p ∈ performStatisticsUpdate history row) :
    p.sum = max 0 (round4 p.sum) := by
  rw [performStatisticsUpdate] at hp
  cases hsel : sortByDate (history.filter (legacyFilter (legacyRowEnd row))) with
  | nil =>
    rw [hsel] at hp
    simp [performFrom] at hp
  | cons f r =>
    rw [hsel, performFrom] at hp
    obtain ⟨x, hx⟩ := legacyRun_sum_shape (f :: r) _ p hp
    rw [hx, clampRound_idem]

theorem claim_C9_witness :
    (⟨1, 5, 0, some 1⟩ : StatPoint).sum =
      max 0 (round4 (⟨1, 5, 0, some 1⟩ : StatPoint).sum) := by
  apply claim_C9 [⟨1, some 5⟩] none ⟨1, 5, 0, some 1⟩
  norm_num [performStatisticsUpdate, performFrom, legacyRun, legacyStep,
    legacyFilter, legacyRowEnd, legacyReset0, sortByDate, rle,
    List.insertionSort, List.orderedInsert, rowState, rowSum, orZero, truthyTs,
    round4, rhe]

/-- C10. A cycle with absent coordinator data or an empty device map is an
initial fetch whose window starts at the configured offset date (a
non-initial cycle uses the trailing 30-day window instead); consequently a
cycle that produced an empty device set is followed by a full-backfill
window. -/
theorem claim_C10 :
    (∀ data : Option DeviceSet,
      (data = none ∨ data = some []) → isInitialFetch data = true) ∧
    (∀ (data : Option DeviceSet) (offsetDate nowDate : ℤ),
      isInitialFetch data = true →
      fetchStartDate data offsetDate nowDate = offsetDate) ∧
    (∀ (data : Option DeviceSet) (offsetDate nowDate : ℤ),
      isInitialFetch data = false →
      fetchStartDate data offsetDate nowDate = nowDate - 30) ∧
    (∀ (prev : Option DeviceSet) (fetched : DeviceSet) (offsetDate nowDate : ℤ),
      updateData prev fetched = [] →
      fetchStartDate (some (updateData prev fetched)) offsetDate nowDate =
        offsetDate) := by
  refine ⟨?_, ?_, ?_, ?_⟩
  · intro data h
    rcases h with h | h <;> rw [h] <;> rfl
  · intro data offsetDate nowDate h
    rw [fetchStartDate, h]
    rfl
  · intro data offsetDate nowDate h
    rw [fetchStartDate, h]
    rfl
  · intro prev fetched offsetDate nowDate h
    rw [h]
    rfl

theorem claim_C10_witness :
    isInitialFetch (some []) = true ∧
    fetchStartDate none 100 200 = 100 ∧
    fetchStartDate (some [("a", wdevA)]) 100 200 = 200 - 30 ∧
    fetchStartDate (some (updateData (some [("a", wdevA)]) [])) 100 200 = 100 :=
  ⟨claim_C10.1 (some []) (Or.inr rfl),
    claim_C10.2.1 none 100 200 rfl,
    claim_C10.2.2.1 (some [("a", wdevA)]) 100 200 rfl,
    claim_C10.2.2.2 (some [("a", wdevA)]) [] 100 200 rfl⟩

end IstaCalista
